import Mathlib

/-!
Verification of the `LinearDiffuser` component
(`landlab/components/diffusion/diffusion.py`) against its specification.

The component is shallowly embedded over exact rationals.  The grid
(`ModelGrid`) is an external collaborator: its topology, index sets and
differential operators are carried as data inside the `Grid` structure, and
the operators whose semantics the specification fixes are modelled from the
spec (marked in their doc comments).  Floating-point `+inf` (as produced by
`numpy` when a positive CFL prefactor is divided by a zero diffusivity) is
encoded as `none : Option ℚ`, so the internal step `self.dt` lives in
`Option ℚ` with `none` standing for `+infinity`.
-/

namespace LandlabDiffusion

/-- Landlab node-status code for fixed-gradient boundary nodes
(`FIXED_GRADIENT_BOUNDARY`). -/
def FIXED_GRADIENT_BOUNDARY : ℕ := 2

/-- `_ALPHA = 0.15`, the time-step stability factor (line 20 of the source). -/
def _ALPHA : ℚ := 15 / 100

/-- The external mesh collaborator.  Index sets are lists of raw indices
(as in the `numpy` arrays landlab exposes); per-entity data are functions of
the raw index.  The differential operators `gradAtPatch`, `fluxDivAtNode`,
`meanPatchNodes` are grid code outside the diffusion component, so they are
carried as opaque data here; claims hold for every choice of them unless the
spec pins their meaning.  `patchesAtLink` mirrors the fixed-width
`patches_at_link` array in which `-1` marks an absent patch.
`hozlinkcomp` / `vertlinkcomp` stand for `cos` / `sin` of `angle_of_link`
(computed once from grid data at construction), and `projResolve x y l`
stands for the float computation
`cos(arctan2(y, x) - angle_of_link[l]) * sqrt(y**2 + x**2)`
used at lines 337-341 and 405-408; `sqrtFn` stands for `np.sqrt`. -/
structure Grid where
  numNodes : ℕ
  numLinks : ℕ
  nodeAtLinkHead : ℕ → ℕ
  nodeAtLinkTail : ℕ → ℕ
  lengthOfLink : ℕ → ℚ
  activeLinks : List ℕ
  fixedLinks : List ℕ
  statusAtNode : ℕ → ℕ
  nodeAtCoreCell : List ℕ
  patchesAtLink : ℕ → List ℤ
  gradAtPatch : (ℕ → ℚ) → ℤ → ℚ × ℚ
  fluxDivAtNode : (ℕ → ℚ) → ℕ → ℚ
  meanPatchNodes : (ℕ → ℚ) → ℤ → ℚ
  hozlinkcomp : ℕ → ℚ
  vertlinkcomp : ℕ → ℚ
  projResolve : ℚ → ℚ → ℕ → ℚ
  sqrtFn : ℚ → ℚ

/-- The resolved diffusivity `self._kd`: a python float, a 1-D numpy array
(node-length, link-length, or — through the missing length check — any
length), or the 2-element list of node arrays. -/
inductive KD where
  | scalar (v : ℚ)
  | arr (a : List ℚ)
  | pairk (ax ay : List ℚ)
deriving DecidableEq

/-- The `method` constructor argument (the source asserts membership in
the pair of strings `simple` / `resolve_on_patches`). -/
inductive Method where
  | simple
  | resolveOnPatches
deriving DecidableEq

/-- The `linear_diffusivity` constructor argument before resolution. -/
inductive DiffSpec where
  | scalar (v : ℚ)
  | array (a : List ℚ)
  | pair (ax ay : List ℚ)
deriving DecidableEq

/-- Python exceptions the embedded code can raise. -/
inductive PyErr where
  | typeError
  | keyError
  | assertionError
  | indexError
  | attributeError
deriving DecidableEq

/-- Component state: the attributes `LinearDiffuser.__init__` stores on
`self`, plus the diffused node field `z` (the grid field
`self.grid.at_node[self.values_to_diffuse]`, which the component mutates in
place).  `usePatchKd = none` models the path on which the source never
assigns `self._use_patch_kd` (the wrong-length-array branch has no `else`),
so that a later read raises `AttributeError`.  `prefactor` is the cached
`self._CFL_actives_prefactor` as a per-link function, and `dt : Option ℚ`
is `self.dt` with `none` encoding `+inf`. -/
structure DState where
  grid : Grid
  kd : KD
  usePatches : Bool
  usePatchKd : Option Bool
  prefactor : ℕ → ℚ
  dt : Option ℚ
  z : ℕ → ℚ
  g : ℕ → ℚ
  qs : ℕ → ℚ
  fixedGradNodes : List ℕ
  fixedGradAnchors : List ℕ
  fixedGradOffsets : List ℚ

/-- Read a numpy 1-D array at an index (out-of-range reads never occur on
the paths we prove about; `0` is a dummy). -/
def nodeVal (a : List ℚ) (n : ℕ) : ℚ := a.getD n 0

/-- Modelled from the spec: `grid.map_max_of_link_nodes_to_link` (grid code
not under `src/`): each link receives the maximum of the values at its two
endpoint nodes (§4.1: "mapped to links via the maximum of the two endpoint
node values per link"). -/
def mapMaxLinkNodes (g : Grid) (f : ℕ → ℚ) (l : ℕ) : ℚ :=
  max (f (g.nodeAtLinkHead l)) (f (g.nodeAtLinkTail l))

/-- numpy float division with a zero divisor produces `+inf` (here `none`)
when the dividend is nonzero; we use it for `prefactor / kd`. -/
def safeDiv (p k : ℚ) : Option ℚ := if k = 0 then none else some (p / k)

/-- Minimum of two extended values, `none` = `+inf`. -/
def omin : Option ℚ → Option ℚ → Option ℚ
  | none, b => b
  | some x, none => some x
  | some x, some y => some (min x y)

/-- `np.nanmin` over a list of extended values (`none` entries — infinities —
are ignored unless everything is infinite). -/
def nanmin (L : List (Option ℚ)) : Option ℚ := L.foldl omin none

/-- `kd_activelinks` of `diffuse` (lines 284-304) as a per-link function:
* node-length array → `map_max_of_link_nodes_to_link(self._kd)`;
* link-length array (`_use_patch_kd`) → the array itself;
* 2-element list → `map_max_of_link_nodes_to_link(sqrt(kd0**2 + kd1**2))`;
* float → the scalar, broadcast.
The source then restricts positionally to `active_links`; the restriction
happens at each use site below. -/
def kdFunOf (s : DState) : ℕ → ℚ :=
  match s.kd with
  | .scalar v => fun _ => v
  | .arr a =>
      if s.usePatchKd = some true then nodeVal a
      else mapMaxLinkNodes s.grid (nodeVal a)
  | .pairk ax ay =>
      mapMaxLinkNodes s.grid
        (fun n => s.grid.sqrtFn ((nodeVal ax n) ^ 2 + (nodeVal ay n) ^ 2))

/-- The exceptions lines 284-291 of `diffuse` can raise before any sub-step:
reading the never-assigned `self._use_patch_kd` raises `AttributeError`, and
the two `assert self._kd.size == ...` statements raise `AssertionError`. -/
def kdCheck (s : DState) : Option PyErr :=
  match s.kd with
  | .arr a =>
      match s.usePatchKd with
      | none => some .attributeError
      | some false =>
          if a.length = s.grid.numNodes then none else some .assertionError
      | some true =>
          if a.length = s.grid.numLinks then none else some .assertionError
  | _ => none

/-- The re-derived CFL step of `diffuse` (lines 292-294 / 302-304):
`self.dt = np.nanmin(self._CFL_actives_prefactor / kd_activelinks)`. -/
def newDt (s : DState) : Option ℚ :=
  nanmin (s.grid.activeLinks.map fun l => safeDiv (s.prefactor l) (kdFunOf s l))

/-- Lines 306-315: `repeats = int((dt/self.dt)//1.)`; `loops = repeats+1`
when `self.dt < inf`, else `0` (the python `range` of a non-positive bound is
empty, matched by `Int.toNat`). -/
def numLoops (dtI : Option ℚ) (T : ℚ) : ℕ :=
  match dtI with
  | none => 0
  | some d => (⌊T / d⌋ + 1).toNat

/-- Lines 414-418: the sub-step size is `self.dt`, scaled by
`extra_time = dt/self.dt - repeats` on the final sub-step (`i == repeats`). -/
def stepSize (dtI : Option ℚ) (T : ℚ) (i : ℕ) : ℚ :=
  match dtI with
  | none => 0
  | some d => if (i : ℤ) = ⌊T / d⌋ then d * (T / d - ⌊T / d⌋) else d

/-- The patches incident to a link: entries of `patches_at_link` that are
not the `-1` fill value (`patches_present_at_link`). -/
def presentPatches (g : Grid) (l : ℕ) : List ℤ :=
  (g.patchesAtLink l).filter (fun p => decide (p ≠ -1))

/-- Lines 320-336 / 355-375: patch gradient components averaged onto a link
(simple mean over incident patches), with links bordering zero patches
zeroed (`dzdx_at_link[no_patches] = 0.`; the `0/0 = nan` the mean would
produce there is overwritten by that fixup). -/
def patchAvgGrad (g : Grid) (z : ℕ → ℚ) (l : ℕ) : ℚ × ℚ :=
  let ps := presentPatches g l
  if ps.length = 0 then (0, 0)
  else (((ps.map fun p => (g.gradAtPatch z p).1).sum) / ps.length,
        ((ps.map fun p => (g.gradAtPatch z p).2).sum) / ps.length)

/-- Lines 343-345 (flux scheme A): `self.g[active] = calc_grad_at_link(z)[active]`.
The link gradient operator is grid code not under `src/`; modelled from the
spec (§4.4): "(value at link head − value at link tail) / link length". -/
def simpleG (s : DState) : ℕ → ℚ := fun l =>
  if l ∈ s.grid.activeLinks then
    (s.z (s.grid.nodeAtLinkHead l) - s.z (s.grid.nodeAtLinkTail l)) /
      s.grid.lengthOfLink l
  else s.g l

/-- Lines 320-341 (flux scheme B gradient, `_use_patch_kd == False` branch):
the patch-averaged gradient vector resolved onto every link via
`cos(arctan2(dzdy, dzdx) - angle) * sqrt(dzdy**2 + dzdx**2)`
(`np.multiply(..., out=self.g)` writes the whole array). -/
def patchG (s : DState) : ℕ → ℚ := fun l =>
  s.grid.projResolve (patchAvgGrad s.grid s.z l).1 (patchAvgGrad s.grid s.z l).2 l

/-- Lines 348-349: `self.qs[active] = -kd_activelinks * self.g[active]`. -/
def qsUpdate (s : DState) (kdf gNew : ℕ → ℚ) : ℕ → ℚ := fun l =>
  if l ∈ s.grid.activeLinks then -(kdf l) * gNew l else s.qs l

/-- `self._kd` read as a full-length per-link array (the unrestricted
elementwise products of lines 377-380). -/
def kdRawAt (s : DState) : ℕ → ℚ :=
  match s.kd with
  | .scalar v => fun _ => v
  | .arr a => nodeVal a
  | .pairk _ _ => fun _ => 0

/-- Lines 377-380 (`_use_patch_kd` branch, kd not a list): the flux vector
components.  Note the source multiplies *both* components by
`dzdx_at_link`, and scales by `np.fabs(self._kd * cos)` /
`np.fabs(self._kd * sin)`:
`qs_EW = -(fabs(kd*hoz) * dzdx)`, `qs_NS = -(fabs(kd*vert) * dzdx)`. -/
def patchFluxVec (s : DState) : ℕ → ℚ × ℚ := fun l =>
  (-(|kdRawAt s l * s.grid.hozlinkcomp l|) * (patchAvgGrad s.grid s.z l).1,
   -(|kdRawAt s l * s.grid.vertlinkcomp l|) * (patchAvgGrad s.grid s.z l).1)

/-- Lines 383-402 (`_use_patch_kd` branch, kd a 2-element list): directional
patch fluxes `-fabs(kd_at_patch) * dzd*_at_patch` averaged onto links, with
zero-patch links zeroed. -/
def pairPatchFlux (s : DState) (ax ay : List ℚ) : ℕ → ℚ × ℚ := fun l =>
  let ps := presentPatches s.grid l
  if ps.length = 0 then (0, 0)
  else
    (((ps.map fun p =>
        -|s.grid.meanPatchNodes (nodeVal ax) p| * (s.grid.gradAtPatch s.z p).1).sum) /
       ps.length,
     ((ps.map fun p =>
        -|s.grid.meanPatchNodes (nodeVal ay) p| * (s.grid.gradAtPatch s.z p).2).sum) /
       ps.length)

/-- Lines 403-408: the flux vector projected back onto the link,
`cos(arctan2(qs_NS, qs_EW) - angle) * sqrt(qs_NS**2 + qs_EW**2)`. -/
def patchFluxAlong (s : DState) : ℕ → ℚ := fun l =>
  match s.kd with
  | .pairk ax ay =>
      s.grid.projResolve (pairPatchFlux s ax ay l).1 (pairPatchFlux s ax ay l).2 l
  | _ => s.grid.projResolve (patchFluxVec s l).1 (patchFluxVec s l).2 l

/-- The divergence `self.dqsds` a sub-step computes, per branch of
lines 317-409 (`calc_flux_div_at_node` applied to the link flux array). -/
def divergenceOf (s : DState) (upk : Bool) (kdf : ℕ → ℚ) : ℕ → ℚ :=
  if upk = false then
    s.grid.fluxDivAtNode
      (qsUpdate s kdf (if s.usePatches then patchG s else simpleG s))
  else
    s.grid.fluxDivAtNode (patchFluxAlong s)

/-- The parallel boundary triplet arrays zipped:
`(fixed node, (anchor node, offset))`. -/
def bcTriples (s : DState) : List (ℕ × ℕ × ℚ) :=
  s.fixedGradNodes.zip (s.fixedGradAnchors.zip s.fixedGradOffsets)

/-- Lines 423-425: the batched numpy assignment
`vals[fixed_grad_nodes] = vals[fixed_grad_anchors] + fixed_grad_offsets`:
every right-hand side is read from the pre-assignment array `zsrc`, and with
duplicate fixed indices the last write wins. -/
def enforceFrom (L : List (ℕ × ℕ × ℚ)) (zsrc acc : ℕ → ℚ) : ℕ → ℚ :=
  L.foldl (fun acc p => Function.update acc p.1 (zsrc p.2.1 + p.2.2)) acc

/-- One sub-step of the loop at lines 316-425, given the value `upk` read
from `self._use_patch_kd` and the pre-computed `kd_activelinks` function
`kdf`: select the flux branch, compute the divergence, update the field at
core nodes (`z[core] += -dqsds[core] * timestep`), and finally enforce the
fixed-gradient boundary conditions. -/
def substepPure (s : DState) (upk : Bool) (kdf : ℕ → ℚ) (ts : ℚ) : DState :=
  let gNew := if upk = false then
      (if s.usePatches then patchG s else simpleG s) else s.g
  let qsNew := if upk = false then qsUpdate s kdf gNew else s.qs
  let dqsds := divergenceOf s upk kdf
  let z1 : ℕ → ℚ := fun n =>
    if n ∈ s.grid.nodeAtCoreCell then s.z n + (-(dqsds n)) * ts else s.z n
  let z2 := enforceFrom (bcTriples s) z1 z1
  { s with z := z2, g := gNew, qs := qsNew }

/-- `LinearDiffuser.diffuse(dt)` (lines 272-427): re-resolve the
diffusivity and the CFL step, then run `loops` sub-steps.  Errors: the
asserts/attribute reads of lines 284-291 (`kdCheck`), and — when at least
one sub-step runs with `self._use_patch_kd` never assigned — the read at
line 317. -/
def diffuse (s : DState) (T : ℚ) : Except PyErr DState :=
  match kdCheck s with
  | some e => .error e
  | none =>
    let s1 : DState := { s with dt := newDt s }
    let L := numLoops s1.dt T
    if L = 0 then .ok s1
    else
      match s1.usePatchKd with
      | none => .error .attributeError
      | some upk =>
          .ok ((List.range L).foldl
            (fun st i => substepPure st upk (kdFunOf s) (stepSize s1.dt T i)) s1)

/-- `updated_boundary_conditions` (lines 225-270): fixed-gradient node,
anchor and offset triplet derived from the current grid classification and
field values. `np.in1d(heads, fixed_grad_nodes)` tests membership of each
head node of each fixed link in `np.where(status == FIXED_GRADIENT_BOUNDARY)[0]`. -/
def fixedGradNodeList (g : Grid) : List ℕ :=
  (List.range g.numNodes).filter (fun n => g.statusAtNode n = FIXED_GRADIENT_BOUNDARY)

def updatedBoundaryConditions (s : DState) : DState :=
  let hf := fun l => s.grid.nodeAtLinkHead l ∈ fixedGradNodeList s.grid
  let fx := s.grid.fixedLinks.map fun l =>
    if hf l then s.grid.nodeAtLinkHead l else s.grid.nodeAtLinkTail l
  let an := s.grid.fixedLinks.map fun l =>
    if hf l then s.grid.nodeAtLinkTail l else s.grid.nodeAtLinkHead l
  { s with fixedGradNodes := fx, fixedGradAnchors := an,
           fixedGradOffsets := (fx.zip an).map fun p => s.z p.1 - s.z p.2 }

/-- Lines 119-148 of `__init__`: resolve `linear_diffusivity` into
`self._kd` and `self._use_patch_kd`.  Faithful points:
`len(linear_diffusivity)` raises `TypeError` on a float/int scalar; a
2-long raw array falls into the 2-element branch, where its scalar
components fail the node-count size asserts on any grid with more than one
node (and on a 1-node grid the later node-to-link mapping of the resulting
list of scalars fails), modelled as an immediate error; a 1-D array whose
length matches neither count leaves `self._use_patch_kd` unassigned
(`none`) because the `if`/`elif` at lines 128-131 has no `else`. -/
def resolveKd (g : Grid) (spec : DiffSpec) : Except PyErr (KD × Option Bool) :=
  match spec with
  | .scalar _ => .error .typeError
  | .array a =>
      if a.length = 2 then .error .assertionError
      else if a.length = g.numNodes then .ok (.arr a, some false)
      else if a.length = g.numLinks then .ok (.arr a, some true)
      else .ok (.arr a, none)
  | .pair ax ay =>
      if ax.length = g.numNodes ∧ ay.length = g.numNodes then
        .ok (.pairk ax ay, some true)
      else .error .assertionError

/-- Lines 177-196 of `__init__`: `kd_links` for the construction-time CFL
estimate.  A non-node-length array is used directly (the comment at
line 180 claims a length check that was never made), so indexing it by
`active_links` raises `IndexError` only if an active-link index falls
outside it. -/
def initKdLinks (g : Grid) (kd : KD) : Except PyErr (ℕ → ℚ) :=
  match kd with
  | .arr a =>
      if a.length = g.numNodes then .ok (mapMaxLinkNodes g (nodeVal a))
      else if ∀ l ∈ g.activeLinks, l < a.length then .ok (nodeVal a)
      else .error .indexError
  | .pairk ax ay =>
      .ok (mapMaxLinkNodes g
        (fun n => g.sqrtFn ((nodeVal ax n) ^ 2 + (nodeVal ay n) ^ 2)))
  | .scalar v => .ok (fun _ => v)

/-- Lines 188-223 of `__init__`: the assembled state — cached CFL
prefactor `_ALPHA * length**2`, initial `self.dt`, zeroed gradient and
flux fields — before the final `updated_boundary_conditions()` call. -/
def mkInitState (g : Grid) (kd : KD) (upk : Option Bool) (method : Method)
    (z0 : ℕ → ℚ) (kdl : ℕ → ℚ) : DState :=
  { grid := g, kd := kd, usePatches := method = Method.resolveOnPatches,
    usePatchKd := upk,
    prefactor := fun l => _ALPHA * g.lengthOfLink l ^ 2,
    dt := nanmin (g.activeLinks.map fun l =>
      safeDiv (_ALPHA * g.lengthOfLink l ^ 2) (kdl l)),
    z := z0, g := fun _ => 0, qs := fun _ => 0,
    fixedGradNodes := [], fixedGradAnchors := [], fixedGradOffsets := [] }

/-- `LinearDiffuser.__init__` (lines 109-223).  `z0` is the grid node field
to diffuse; a missing `linear_diffusivity` raises `KeyError`
(lines 146-148). -/
def initLD (g : Grid) (ld : Option DiffSpec) (method : Method) (z0 : ℕ → ℚ) :
    Except PyErr DState :=
  match ld with
  | none => .error .keyError
  | some spec =>
    match resolveKd g spec with
    | .error e => .error e
    | .ok (kd, upk) =>
      match initKdLinks g kd with
      | .error e => .error e
      | .ok kdl =>
          .ok (updatedBoundaryConditions (mkInitState g kd upk method z0 kdl))

/-- The read-only `time_step` property (lines 443-447): returns `self.dt`
(`none` = `+inf`). -/
def timeStep (s : DState) : Option ℚ := s.dt

/-- The two flux discretization schemes of the spec. -/
inductive FluxScheme where
  | simple
  | patchResolved
deriving DecidableEq

/-- Which flux scheme a sub-step of `diffuse` actually executes, read off
the branch structure of lines 317-409: the outer branch is on
`self._use_patch_kd`, and only its `False` arm consults
`self._use_patches`. -/
def schemeUsed (s : DState) : FluxScheme :=
  match s.usePatchKd with
  | some false => if s.usePatches then .patchResolved else .simple
  | _ => .patchResolved

/-- Following the words of the spec (§2, §6): the flux scheme named by the constructor
scheme selector — `simple` names Scheme A and `resolve_on_patches` names the
patch-resolved Scheme B.  Kept separate from `schemeUsed` for comparison. -/
def specSelectedScheme : Method → FluxScheme
  | .simple => .simple
  | .resolveOnPatches => .patchResolved

/-- The sub-step iteration of the `diffuse` loop (the `for` at line 316),
with `szs i` the size of sub-step `i`. -/
def stepFold (L : List ℕ) (upk : Bool) (kdf : ℕ → ℚ) (szs : ℕ → ℚ) (s0 : DState) :
    DState :=
  L.foldl (fun st i => substepPure st upk kdf (szs i)) s0

/-! ## Real-valued form of the link projection

The trigonometric resolution the source performs with numpy
(`cos(arctan2(y, x) - angle) * sqrt(y**2 + x**2)`) is embedded over `ℝ`
in order to reason about the isotropic patch-resolved flux. -/

/-- `np.arctan2 y x`: the angle of the vector `(x, y)`, realised as the
complex argument of `x + y i` (same branch cut and `arctan2 0 0 = 0`). -/
noncomputable def arctan2 (y x : ℝ) : ℝ := Complex.arg ⟨x, y⟩

/-- Lines 337-341 / 405-408 over `ℝ`:
`cos(arctan2(y, x) - theta) * sqrt(y**2 + x**2)` for a link of angle
`theta`. -/
noncomputable def resolveReal (x y θ : ℝ) : ℝ :=
  Real.cos (arctan2 y x - θ) * Real.sqrt (y ^ 2 + x ^ 2)

/-! ## Conclusion bundles of the claim theorems -/

/-- Conclusion of claim C1: `diffuse` runs exactly
`floor(dt/dt_internal) + 1` sub-steps, all of size `dt_internal` except the
last of size `dt_internal * fractional`, summing to `dt`, and every
sub-step updates the field at core nodes by `+= -divergence * step_size`. -/
def C1Concl (s : DState) (T d : ℚ) (upk : Bool) : Prop :=
  diffuse s T = .ok ((List.range (numLoops (some d) T)).foldl
      (fun st i => substepPure st upk (kdFunOf s) (stepSize (some d) T i))
      { s with dt := some d })
  ∧ numLoops (some d) T = (⌊T / d⌋).toNat + 1
  ∧ (∀ i : ℕ, (i : ℤ) < ⌊T / d⌋ → stepSize (some d) T i = d)
  ∧ stepSize (some d) T (⌊T / d⌋).toNat = d * (T / d - ⌊T / d⌋)
  ∧ ((List.range (numLoops (some d) T)).map (stepSize (some d) T)).sum = T
  ∧ (∀ st ts n, n ∈ st.grid.nodeAtCoreCell → n ∉ st.fixedGradNodes →
      (substepPure st upk (kdFunOf s) ts).z n =
        st.z n + (-(divergenceOf st upk (kdFunOf s) n)) * ts)

/-- Conclusion of claim C2: offsets are snapshots `z[fixed] - z[anchor]`
taken at derivation time; after every sub-step, and after every `advance`
on a freshly derived triplet, `z[fixed] = z[anchor] + offset` holds. -/
def C2Concl (s : DState) (T : ℚ) : Prop :=
  (∀ p ∈ bcTriples (updatedBoundaryConditions s), p.2.2 = s.z p.1 - s.z p.2.1)
  ∧ (∀ (st : DState) (upk : Bool) (kdf : ℕ → ℚ) (ts : ℚ),
      st.fixedGradNodes.Nodup →
      (∀ a ∈ st.fixedGradAnchors, a ∉ st.fixedGradNodes) →
      ∀ p ∈ bcTriples st,
        (substepPure st upk kdf ts).z p.1 =
          (substepPure st upk kdf ts).z p.2.1 + p.2.2)
  ∧ (∀ s', diffuse (updatedBoundaryConditions s) T = .ok s' →
      ∀ p ∈ bcTriples s', s'.z p.1 = s'.z p.2.1 + p.2.2)

/-- Conclusion of claim C3: the stability factor is the fixed constant
`0.15 < 0.25`; the geometric prefactor cached at construction is
`alpha * length**2`; every `diffuse` call recomputes `self.dt` from the
current diffusivity as the (nan-)minimum over active links of
`prefactor / kd`, which under positive diffusivity is the genuine minimum
of `alpha * length**2 / kd`. -/
def C3Concl (g : Grid) (s : DState) : Prop :=
  _ALPHA = 15 / 100 ∧ _ALPHA < 1 / 4
  ∧ (∀ l, s.prefactor l = _ALPHA * g.lengthOfLink l ^ 2)
  ∧ (∀ T s', diffuse s T = .ok s' →
      (∀ l, s'.prefactor l = s.prefactor l) ∧ s'.dt = newDt s
      ∧ newDt s = nanmin (s.grid.activeLinks.map fun l =>
          safeDiv (s.prefactor l) (kdFunOf s l)))
  ∧ (∀ T s', diffuse s T = .ok s' → s.grid.activeLinks ≠ [] →
      (∀ l ∈ s.grid.activeLinks, 0 < kdFunOf s l) →
      ∃ q, s'.dt = some q
        ∧ (∀ l ∈ s.grid.activeLinks, q ≤ s.prefactor l / kdFunOf s l)
        ∧ ∃ l ∈ s.grid.activeLinks, q = s.prefactor l / kdFunOf s l)

/-- Conclusion of claim C4 (amended): the selector decides the scheme
exactly when `_use_patch_kd` is `False`; when it is `True` the
patch-resolved path runs regardless, and the stored `g`/`qs` fields show
which branch executed. -/
def C4Concl (s : DState) (m : Method) : Prop :=
  s.usePatches = decide (m = Method.resolveOnPatches)
  ∧ (s.usePatchKd = some false → schemeUsed s = specSelectedScheme m)
  ∧ (s.usePatchKd = some true → schemeUsed s = FluxScheme.patchResolved)
  ∧ (∀ kdf ts, (substepPure s false kdf ts).g =
        (if s.usePatches then patchG s else simpleG s)
      ∧ (substepPure s false kdf ts).qs =
        qsUpdate s kdf (if s.usePatches then patchG s else simpleG s))
  ∧ (∀ kdf ts, (substepPure s true kdf ts).g = s.g
      ∧ (substepPure s true kdf ts).qs = s.qs)

/-- Conclusion of claim C5: zero diffusivity on every active link gives
`dt = +inf` (`none`), an `advance` with zero sub-steps leaving the field
untouched and `time_step` reading `+inf`; diffusivity nonzero on some
active link (and nonnegative, with positive prefactors) gives a strictly
positive internal step. -/
def C5Concl (s : DState) (T : ℚ) : Prop :=
  ((∀ l ∈ s.grid.activeLinks, kdFunOf s l = 0) →
    newDt s = none
    ∧ diffuse s T = .ok { s with dt := none }
    ∧ (∀ s', diffuse s T = .ok s' →
        (∀ n, s'.z n = s.z n) ∧ timeStep s' = none))
  ∧ ((∃ l ∈ s.grid.activeLinks, kdFunOf s l ≠ 0) →
      (∀ l ∈ s.grid.activeLinks, 0 ≤ kdFunOf s l) →
      (∀ l ∈ s.grid.activeLinks, 0 < s.prefactor l) →
      ∃ q, newDt s = some q ∧ 0 < q)

/-- Conclusion of claim C6: with a node-length diffusivity array the
per-link diffusivity is the maximum of the two endpoint node values, used
both for the re-derived `self.dt` and for the flux on active links. -/
def C6Concl (s : DState) (a : List ℚ) : Prop :=
  (∀ l, kdFunOf s l =
    max (nodeVal a (s.grid.nodeAtLinkHead l)) (nodeVal a (s.grid.nodeAtLinkTail l)))
  ∧ (∀ T s', diffuse s T = .ok s' →
      s'.dt = nanmin (s.grid.activeLinks.map fun l =>
        safeDiv (s.prefactor l)
          (max (nodeVal a (s.grid.nodeAtLinkHead l))
            (nodeVal a (s.grid.nodeAtLinkTail l)))))
  ∧ (∀ ts l, l ∈ s.grid.activeLinks →
      (substepPure s false (kdFunOf s) ts).qs l =
        -(max (nodeVal a (s.grid.nodeAtLinkHead l))
            (nodeVal a (s.grid.nodeAtLinkTail l))) *
          ((if s.usePatches then patchG s else simpleG s) l))

/-- Conclusion of claim C9 (amended): in the patch-resolved gradient path
(`_use_patch_kd == False`, `_use_patches == True`) the flux stored on an
active link of angle `θ` equals the dot product of the flux vector
`-kd * (averaged gradient)` with the unit link direction, which is exactly
the `cos(flux_angle - link_angle) * magnitude` projection of that vector;
links bordering zero patches carry zero flux. -/
def C9Concl (s : DState) (kdf : ℕ → ℚ) (ts : ℚ) (l : ℕ) (θ : ℝ) : Prop :=
  (((substepPure s false kdf ts).qs l : ℝ) =
      (-(kdf l) * (patchAvgGrad s.grid s.z l).1) * Real.cos θ
      + (-(kdf l) * (patchAvgGrad s.grid s.z l).2) * Real.sin θ)
  ∧ (((substepPure s false kdf ts).qs l : ℝ) =
      resolveReal (-(kdf l) * (patchAvgGrad s.grid s.z l).1)
        (-(kdf l) * (patchAvgGrad s.grid s.z l).2) θ)
  ∧ (presentPatches s.grid l = [] → (substepPure s false kdf ts).qs l = 0)

/-! ## Concrete grids and states for counterexamples and witnesses -/

/-- A trivial grid, base for the concrete instances below. -/
def zeroGrid : Grid :=
  { numNodes := 0, numLinks := 0, nodeAtLinkHead := fun _ => 0,
    nodeAtLinkTail := fun _ => 0, lengthOfLink := fun _ => 0,
    activeLinks := [], fixedLinks := [], statusAtNode := fun _ => 0,
    nodeAtCoreCell := [], patchesAtLink := fun _ => [],
    gradAtPatch := fun _ _ => (0, 0), fluxDivAtNode := fun _ _ => 0,
    meanPatchNodes := fun _ _ => 0, hozlinkcomp := fun _ => 0,
    vertlinkcomp := fun _ => 0, projResolve := fun _ _ _ => 0,
    sqrtFn := fun _ => 0 }

instance : Inhabited Grid := ⟨zeroGrid⟩

instance : Inhabited DState :=
  ⟨{ grid := zeroGrid, kd := KD.scalar 0, usePatches := false,
     usePatchKd := none, prefactor := fun _ => 0, dt := none,
     z := fun _ => 0, g := fun _ => 0, qs := fun _ => 0,
     fixedGradNodes := [], fixedGradAnchors := [], fixedGradOffsets := [] }⟩

/-- Three nodes, one active link `0 → 1`, core node `1`. -/
def G1w : Grid :=
  { zeroGrid with
    numNodes := 3, numLinks := 1,
    nodeAtLinkHead := fun _ => 1, nodeAtLinkTail := fun _ => 0,
    lengthOfLink := fun _ => 1, activeLinks := [0], nodeAtCoreCell := [1],
    fluxDivAtNode := fun f _ => f 0 }

/-- A simple-scheme state with scalar diffusivity `1` on `G1w`. -/
def s1w : DState :=
  { grid := G1w, kd := KD.scalar 1, usePatches := false,
    usePatchKd := some false, prefactor := fun _ => 1, dt := none,
    z := fun n => (n : ℚ), g := fun _ => 0, qs := fun _ => 0,
    fixedGradNodes := [], fixedGradAnchors := [], fixedGradOffsets := [] }

/-- Zero scalar diffusivity on `G1w` (for claim C5). -/
def s5w : DState := { s1w with kd := KD.scalar 0 }

/-- `G1w` with node `0` fixed-gradient and link `0` (head `0`, tail `1`) a
fixed link (for claim C2). -/
def G2w : Grid :=
  { G1w with
    nodeAtLinkHead := fun _ => 0, nodeAtLinkTail := fun _ => 1,
    fixedLinks := [0], statusAtNode := fun n => if n = 0 then 2 else 0 }

/-- State on `G2w` whose boundary triplet will be re-derived (claim C2). -/
def s2w : DState := { s1w with grid := G2w }

/-- Three nodes, two active links `l : l → l+1` (for claims C3 and C6). -/
def G3w : Grid :=
  { zeroGrid with
    numNodes := 3, numLinks := 2,
    nodeAtLinkHead := fun l => l + 1, nodeAtLinkTail := fun l => l,
    lengthOfLink := fun _ => 1, activeLinks := [0, 1] }

/-- The node-length diffusivity array used for claim C3. -/
def kd3w : List ℚ := [1, 1, 1]

/-- The construction result for claim C3 (a successful `__init__` with a
node-length array; recall scalar diffusivity cannot construct). -/
def s3w : DState :=
  (initLD G3w (some (DiffSpec.array kd3w)) Method.simple (fun _ => 0)).toOption.getD default

/-- Node-length diffusivity state on `G3w` for claim C6. -/
def s6w : DState := { s1w with grid := G3w, kd := KD.arr [1, 2, 3] }

/-- Two nodes, one active link `0 → 1` with no incident patches, and a
divergence operator that reads the link-0 flux (claim C4). -/
def G4w : Grid :=
  { zeroGrid with
    numNodes := 2, numLinks := 1,
    nodeAtLinkHead := fun _ => 1, nodeAtLinkTail := fun _ => 0,
    lengthOfLink := fun _ => 1, activeLinks := [0], nodeAtCoreCell := [1],
    patchesAtLink := fun _ => [], fluxDivAtNode := fun f _ => f 0,
    hozlinkcomp := fun _ => 1, vertlinkcomp := fun _ => 0,
    projResolve := fun x _ _ => x }

/-- The node field diffused in the C4 counterexample. -/
def z4w : ℕ → ℚ := fun n => (n : ℚ)

/-- Grid for the C9 witness: one active link whose incident patch has
gradient vector `(2, 3)`, with link angle `0` (so the numpy projection
collapses to the first component, matching `resolveReal x y 0 = x`). -/
def G9w : Grid :=
  { G1w with
    numNodes := 2, patchesAtLink := fun _ => [0],
    gradAtPatch := fun _ _ => (2, 3), projResolve := fun x _ _ => x }

/-- Patch-resolved state with scalar diffusivity `5` on `G9w`. -/
def s9w : DState := { s1w with grid := G9w, kd := KD.scalar 5, usePatches := true }

/-- Grid for the C9 counterexample: a horizontal active link
(`cos = 1`, `sin = 0`) whose incident patch has gradient `(0, 1)`. -/
def G9c : Grid :=
  { G1w with
    numNodes := 2, patchesAtLink := fun _ => [0],
    gradAtPatch := fun _ _ => (0, 1), hozlinkcomp := fun _ => 1,
    vertlinkcomp := fun _ => 0 }

/-- Link-length diffusivity array state on `G9c`: the code path of
lines 377-380. -/
def s9c : DState :=
  { s1w with
    grid := G9c, kd := KD.arr [1], usePatchKd := some true,
    usePatches := true }

/-- Three nodes, two links, both active (claim C8). -/
def G8w : Grid :=
  { zeroGrid with
    numNodes := 3, numLinks := 2,
    nodeAtLinkHead := fun l => l + 1, nodeAtLinkTail := fun l => l,
    lengthOfLink := fun _ => 1, activeLinks := [0, 1] }

/-- A diffusivity array of length 5 on a grid with 3 nodes and 2 links:
matches neither count (claim C8). -/
def kd8w : List ℚ := [1, 1, 1, 1, 1]

/-- The state produced by `diffuse` on `s1w` (claim C10 witness). -/
def s10res : DState := (diffuse s1w 1).toOption.getD default

/-! ## Helper lemmas -/

theorem substep_grid (s : DState) (upk : Bool) (kdf : ℕ → ℚ) (ts : ℚ) :
    (substepPure s upk kdf ts).grid = s.grid := rfl

theorem substep_dt (s : DState) (upk : Bool) (kdf : ℕ → ℚ) (ts : ℚ) :
    (substepPure s upk kdf ts).dt = s.dt := rfl

theorem substep_prefactor (s : DState) (upk : Bool) (kdf : ℕ → ℚ) (ts : ℚ) :
    (substepPure s upk kdf ts).prefactor = s.prefactor := rfl

theorem substep_fixedGradNodes (s : DState) (upk : Bool) (kdf : ℕ → ℚ) (ts : ℚ) :
    (substepPure s upk kdf ts).fixedGradNodes = s.fixedGradNodes := rfl

theorem substep_bcTriples (s : DState) (upk : Bool) (kdf : ℕ → ℚ) (ts : ℚ) :
    bcTriples (substepPure s upk kdf ts) = bcTriples s := rfl

theorem substep_fixedGradAnchors (s : DState) (upk : Bool) (kdf : ℕ → ℚ) (ts : ℚ) :
    (substepPure s upk kdf ts).fixedGradAnchors = s.fixedGradAnchors := rfl

/-- The field after one sub-step: core update then batched boundary
enforcement. -/
theorem substep_z (s : DState) (upk : Bool) (kdf : ℕ → ℚ) (ts : ℚ) :
    (substepPure s upk kdf ts).z =
      enforceFrom (bcTriples s)
        (fun n => if n ∈ s.grid.nodeAtCoreCell then
            s.z n + (-(divergenceOf s upk kdf n)) * ts else s.z n)
        (fun n => if n ∈ s.grid.nodeAtCoreCell then
            s.z n + (-(divergenceOf s upk kdf n)) * ts else s.z n) := rfl

/-- A node that is not a fixed-gradient node of any triple is untouched by
the batched enforcement. -/
theorem enforceFrom_not_mem (L : List (ℕ × ℕ × ℚ)) (zsrc : ℕ → ℚ) :
    ∀ (acc : ℕ → ℚ) (n : ℕ), n ∉ L.map (fun p => p.1) →
      enforceFrom L zsrc acc n = acc n := by
  induction L with
  | nil => intro acc n _; rfl
  | cons q t ih =>
      intro acc n hn
      simp only [List.map_cons, List.mem_cons, not_or] at hn
      have h1 : enforceFrom (q :: t) zsrc acc =
          enforceFrom t zsrc (Function.update acc q.1 (zsrc q.2.1 + q.2.2)) := rfl
      rw [h1, ih _ n hn.2, Function.update_noteq hn.1]

/-- With pairwise distinct fixed nodes, each pair ends at exactly the value
`zsrc[anchor] + offset`. -/
theorem enforceFrom_mem (L : List (ℕ × ℕ × ℚ)) (zsrc : ℕ → ℚ) :
    ∀ (acc : ℕ → ℚ) (p : ℕ × ℕ × ℚ), (L.map (fun q => q.1)).Nodup → p ∈ L →
      enforceFrom L zsrc acc p.1 = zsrc p.2.1 + p.2.2 := by
  induction L with
  | nil => intro acc p _ hp; cases hp
  | cons q t ih =>
      intro acc p hnd hp
      simp only [List.map_cons, List.nodup_cons] at hnd
      have h1 : enforceFrom (q :: t) zsrc acc =
          enforceFrom t zsrc (Function.update acc q.1 (zsrc q.2.1 + q.2.2)) := rfl
      rcases List.mem_cons.mp hp with hpq | hpt
      · subst hpq
        rw [h1, enforceFrom_not_mem t zsrc _ p.1 hnd.1, Function.update_same]
      · rw [h1, ih _ p hnd.2 hpt]

/-- The first components of a zip form a sublist of the first list. -/
theorem map_fst_zip_sublist {α β : Type} :
    ∀ (A : List α) (B : List β), ((A.zip B).map Prod.fst).Sublist A := by
  intro A
  induction A with
  | nil => intro B; simp
  | cons a t ih =>
      intro B
      cases B with
      | nil => simp
      | cons b B' =>
          simpa using List.Sublist.cons₂ a (ih B')

/-- Membership in the derived triplet list determines the offset as the
snapshot difference of the zipped node pair. -/
theorem mem_zip_zip_map {f : ℕ × ℕ → ℚ} :
    ∀ (A B : List ℕ) (p : ℕ × ℕ × ℚ),
      p ∈ A.zip (B.zip ((A.zip B).map f)) → p.2.2 = f (p.1, p.2.1) := by
  intro A
  induction A with
  | nil => intro B p hp; simp [List.zip_nil_left] at hp
  | cons a A' ih =>
      intro B p hp
      cases B with
      | nil => simp [List.zip_nil_right] at hp
      | cons b B' =>
          simp only [List.zip_cons_cons, List.map_cons, List.mem_cons] at hp
          rcases hp with hp | hp
          · subst hp; rfl
          · exact ih B' p hp

theorem nanmin_aux_none (L : List (Option ℚ)) :
    ∀ acc : Option ℚ, L.foldl omin acc = none ↔ acc = none ∧ ∀ x ∈ L, x = none := by
  induction L with
  | nil => intro acc; simp [List.foldl_nil]
  | cons x t ih =>
      intro acc
      rw [List.foldl_cons, ih]
      constructor
      · rintro ⟨h1, h2⟩
        cases acc with
        | none =>
            cases x with
            | none => exact ⟨rfl, fun y hy => by
                rcases List.mem_cons.mp hy with h | h
                · subst h; rfl
                · exact h2 y h⟩
            | some v => exact absurd h1 (by simp [omin])
        | some v => exact absurd h1 (by cases x <;> simp [omin])
      · rintro ⟨h1, h2⟩
        subst h1
        have hx : x = none := h2 x (List.mem_cons_self x t)
        subst hx
        exact ⟨rfl, fun y hy => h2 y (List.mem_cons_of_mem _ hy)⟩

/-- `nanmin` is infinite exactly when every entry is. -/
theorem nanmin_eq_none_iff (L : List (Option ℚ)) :
    nanmin L = none ↔ ∀ x ∈ L, x = none := by
  rw [nanmin, nanmin_aux_none]
  simp

theorem nanmin_aux_pos (L : List (Option ℚ))
    (hL : ∀ x ∈ L, ∀ r : ℚ, x = some r → 0 < r) :
    ∀ acc : Option ℚ, (∀ r : ℚ, acc = some r → 0 < r) →
      ∀ q : ℚ, L.foldl omin acc = some q → 0 < q := by
  induction L with
  | nil => intro acc hacc q hq; exact hacc q hq
  | cons x t ih =>
      intro acc hacc q hq
      rw [List.foldl_cons] at hq
      have hx := hL x (List.mem_cons_self x t)
      have ht : ∀ y ∈ t, ∀ r : ℚ, y = some r → 0 < r :=
        fun y hy => hL y (List.mem_cons_of_mem _ hy)
      refine ih ht (omin acc x) ?_ q hq
      intro r hr
      cases acc with
      | none =>
          cases x with
          | none => exact absurd hr (by simp [omin])
          | some v =>
              have : v = r := by simpa [omin] using hr
              exact this ▸ hx v rfl
      | some w =>
          cases x with
          | none =>
              have : w = r := by simpa [omin] using hr
              exact this ▸ hacc w rfl
          | some v =>
              have : min w v = r := by simpa [omin] using hr
              subst this
              rcases min_choice w v with h | h <;> rw [h]
              · exact hacc w rfl
              · exact hx v rfl

/-- Every finite entry of `nanmin` positive forces a positive result. -/
theorem nanmin_pos (L : List (Option ℚ))
    (hL : ∀ x ∈ L, ∀ r : ℚ, x = some r → 0 < r) :
    ∀ q : ℚ, nanmin L = some q → 0 < q :=
  nanmin_aux_pos L hL none (by simp)

theorem nanmin_aux_some (L : List ℚ) :
    ∀ m : ℚ, ∃ q, (L.map some).foldl omin (some m) = some q ∧
      (q = m ∨ q ∈ L) ∧ q ≤ m ∧ ∀ x ∈ L, q ≤ x := by
  induction L with
  | nil => intro m; exact ⟨m, rfl, Or.inl rfl, le_refl m, by simp⟩
  | cons x t ih =>
      intro m
      rcases ih (min m x) with ⟨q, hq, hmem, hle, hall⟩
      refine ⟨q, ?_, ?_, ?_, ?_⟩
      · simpa [List.map_cons, List.foldl_cons, omin] using hq
      · rcases hmem with h | h
        · rcases min_choice m x with hmx | hmx
          · exact Or.inl (h.trans hmx)
          · exact Or.inr (by rw [h, hmx]; exact List.mem_cons_self x t)
        · exact Or.inr (List.mem_cons_of_mem _ h)
      · exact hle.trans (min_le_left m x)
      · intro y hy
        rcases List.mem_cons.mp hy with h | h
        · exact h ▸ hle.trans (min_le_right m x)
        · exact hall y h

/-- For a nonempty list of finite values, `nanmin` is the genuine minimum:
attained by, and bounding, the values. -/
theorem nanmin_map_some (A : List ℕ) (h : ℕ → ℚ) (hne : A ≠ []) :
    ∃ q, nanmin (A.map fun l => some (h l)) = some q ∧
      (∀ l ∈ A, q ≤ h l) ∧ ∃ l ∈ A, q = h l := by
  cases A with
  | nil => exact absurd rfl hne
  | cons a t =>
      have hmaps : (a :: t).map (fun l => some (h l)) = (h a :: t.map h).map some := by
        simp
      rcases nanmin_aux_some (t.map h) (h a) with ⟨q, hq, hmem, hle, hall⟩
      refine ⟨q, ?_, ?_, ?_⟩
      · rw [nanmin, hmaps]
        simpa [List.map_cons, List.foldl_cons, omin] using hq
      · intro l hl
        rcases List.mem_cons.mp hl with h1 | h1
        · exact h1 ▸ hle
        · exact hall (h l) (List.mem_map_of_mem h h1)
      · rcases hmem with h1 | h1
        · exact ⟨a, List.mem_cons_self a t, h1⟩
        · rcases List.mem_map.mp h1 with ⟨l, hl, hlq⟩
          exact ⟨l, List.mem_cons_of_mem _ hl, hlq.symm⟩

theorem sum_map_const_rat (L : List ℕ) (c : ℚ) :
    (L.map fun _ => c).sum = L.length * c := by
  induction L with
  | nil => simp
  | cons a t ih => simp [List.map_cons, List.sum_cons, ih]; ring

/-- The numpy angle/magnitude resolution of a vector onto a direction of
angle `θ` is its dot product with the unit vector of that direction. -/
theorem resolveReal_eq (x y θ : ℝ) :
    resolveReal x y θ = x * Real.cos θ + y * Real.sin θ := by
  unfold resolveReal arctan2
  rcases eq_or_ne (⟨x, y⟩ : ℂ) 0 with h0 | h0
  · have hx : x = 0 := congrArg Complex.re h0
    have hy : y = 0 := congrArg Complex.im h0
    simp [hx, hy]
  · have habs : Real.sqrt (y ^ 2 + x ^ 2) = Complex.abs ⟨x, y⟩ := by
      rw [Complex.abs_apply, Complex.normSq_mk]
      ring_nf
    have hre : (⟨x, y⟩ : ℂ).re = x := rfl
    have him : (⟨x, y⟩ : ℂ).im = y := rfl
    have habs0 : Complex.abs ⟨x, y⟩ ≠ 0 := by
      simpa [Complex.abs.ne_zero_iff] using h0
    rw [habs, Real.cos_sub, Complex.cos_arg h0, Complex.sin_arg, hre, him]
    field_simp

theorem stepFold_grid (L : List ℕ) (upk : Bool) (kdf : ℕ → ℚ) (szs : ℕ → ℚ) :
    ∀ s0 : DState, (stepFold L upk kdf szs s0).grid = s0.grid := by
  induction L with
  | nil => intro s0; rfl
  | cons i t ih => intro s0; exact (ih _).trans (substep_grid s0 upk kdf (szs i))

theorem stepFold_dt (L : List ℕ) (upk : Bool) (kdf : ℕ → ℚ) (szs : ℕ → ℚ) :
    ∀ s0 : DState, (stepFold L upk kdf szs s0).dt = s0.dt := by
  induction L with
  | nil => intro s0; rfl
  | cons i t ih => intro s0; exact (ih _).trans (substep_dt s0 upk kdf (szs i))

theorem stepFold_prefactor (L : List ℕ) (upk : Bool) (kdf : ℕ → ℚ) (szs : ℕ → ℚ) :
    ∀ s0 : DState, (stepFold L upk kdf szs s0).prefactor = s0.prefactor := by
  induction L with
  | nil => intro s0; rfl
  | cons i t ih => intro s0; exact (ih _).trans (substep_prefactor s0 upk kdf (szs i))

theorem stepFold_bcTriples (L : List ℕ) (upk : Bool) (kdf : ℕ → ℚ) (szs : ℕ → ℚ) :
    ∀ s0 : DState, bcTriples (stepFold L upk kdf szs s0) = bcTriples s0 := by
  induction L with
  | nil => intro s0; rfl
  | cons i t ih => intro s0; exact (ih _).trans (substep_bcTriples s0 upk kdf (szs i))

/-- Structure of a successful `diffuse` call: either zero sub-steps (the
state with the freshly recomputed `dt`), or the sub-step fold. -/
theorem diffuse_ok_cases (s : DState) (T : ℚ) (s' : DState)
    (h : diffuse s T = .ok s') :
    kdCheck s = none ∧
    (s' = { s with dt := newDt s } ∨
      ∃ upk, s.usePatchKd = some upk ∧ numLoops (newDt s) T ≠ 0 ∧
        s' = stepFold (List.range (numLoops (newDt s) T)) upk (kdFunOf s)
              (stepSize (newDt s) T) { s with dt := newDt s }) := by
  unfold diffuse at h
  cases hk : kdCheck s with
  | some e => rw [hk] at h; cases h
  | none =>
      rw [hk] at h
      simp only at h
      by_cases hL : numLoops (newDt s) T = 0
      · rw [if_pos hL] at h
        exact ⟨rfl, Or.inl (Except.ok.inj h).symm⟩
      · rw [if_neg hL] at h
        cases hupk : s.usePatchKd with
        | none => rw [hupk] at h; cases h
        | some upk =>
            rw [hupk] at h
            exact ⟨rfl, Or.inr ⟨upk, rfl, hL, (Except.ok.inj h).symm⟩⟩

/-- Fields of a successful construction: the stored grid, field reference,
scheme flag, and the geometric CFL prefactor cached once. -/
theorem initLD_ok_fields (g : Grid) (ld : DiffSpec) (m : Method) (z0 : ℕ → ℚ)
    (s : DState) (h : initLD g (some ld) m z0 = .ok s) :
    s.grid = g ∧ s.z = z0 ∧ s.usePatches = decide (m = Method.resolveOnPatches) ∧
    (∀ l, s.prefactor l = _ALPHA * g.lengthOfLink l ^ 2) := by
  unfold initLD at h
  dsimp only at h
  cases hres : resolveKd g ld with
  | error e => rw [hres] at h; cases h
  | ok p =>
      obtain ⟨kd, upk⟩ := p
      rw [hres] at h
      dsimp only at h
      cases hkdl : initKdLinks g kd with
      | error e => rw [hkdl] at h; cases h
      | ok kdl =>
          rw [hkdl] at h
          have hs := (Except.ok.inj h).symm
          subst hs
          exact ⟨rfl, rfl, rfl, fun l => rfl⟩

/-- A node outside the fixed-node list heads no boundary triple. -/
theorem not_mem_bc_fst (s : DState) (n : ℕ) (h : n ∉ s.fixedGradNodes) :
    n ∉ (bcTriples s).map (fun p => p.1) := by
  intro hmem
  rcases List.mem_map.mp hmem with ⟨p, hp, hpn⟩
  obtain ⟨p1, p2⟩ := p
  exact h (hpn ▸ (List.of_mem_zip hp).1)

/-- The anchor of a triple is drawn from the anchor list. -/
theorem bc_anchor_mem (s : DState) (p : ℕ × ℕ × ℚ) (hp : p ∈ bcTriples s) :
    p.2.1 ∈ s.fixedGradAnchors := by
  obtain ⟨p1, p2, p3⟩ := p
  have h2 := (List.of_mem_zip hp).2
  exact (List.of_mem_zip h2).1

/-- The core-node update of one sub-step, at a node the boundary
enforcement leaves alone. -/
theorem substep_z_core (st : DState) (upk : Bool) (kdf : ℕ → ℚ) (ts : ℚ) (n : ℕ)
    (hn : n ∈ st.grid.nodeAtCoreCell) (hnf : n ∉ st.fixedGradNodes) :
    (substepPure st upk kdf ts).z n =
      st.z n + (-(divergenceOf st upk kdf n)) * ts := by
  rw [substep_z, enforceFrom_not_mem _ _ _ n (not_mem_bc_fst st n hnf), if_pos hn]

/-- A non-core, non-fixed node is untouched by one sub-step. -/
theorem substep_z_off (st : DState) (upk : Bool) (kdf : ℕ → ℚ) (ts : ℚ) (n : ℕ)
    (hn : n ∉ st.grid.nodeAtCoreCell) (hnf : n ∉ st.fixedGradNodes) :
    (substepPure st upk kdf ts).z n = st.z n := by
  rw [substep_z, enforceFrom_not_mem _ _ _ n (not_mem_bc_fst st n hnf), if_neg hn]

/-- A non-core, non-fixed node is untouched by the whole sub-step loop. -/
theorem stepFold_z_off (L : List ℕ) (upk : Bool) (kdf : ℕ → ℚ) (szs : ℕ → ℚ) :
    ∀ (s0 : DState) (n : ℕ), n ∉ s0.grid.nodeAtCoreCell → n ∉ s0.fixedGradNodes →
      (stepFold L upk kdf szs s0).z n = s0.z n := by
  induction L with
  | nil => intro s0 n _ _; rfl
  | cons i t ih =>
      intro s0 n h1 h2
      have hrec : (stepFold (i :: t) upk kdf szs s0) =
          stepFold t upk kdf szs (substepPure s0 upk kdf (szs i)) := rfl
      rw [hrec, ih (substepPure s0 upk kdf (szs i)) n h1 h2,
        substep_z_off s0 upk kdf (szs i) n h1 h2]

/-- The sub-step sizes of one `advance(dt)` sum to exactly `dt`. -/
theorem sum_stepSizes (T d : ℚ) (hd : 0 < d) (hT : 0 < T) :
    ((List.range (numLoops (some d) T)).map (stepSize (some d) T)).sum = T := by
  have hr0 : 0 ≤ ⌊T / d⌋ := Int.floor_nonneg.mpr (le_of_lt (div_pos hT hd))
  have hL : numLoops (some d) T = ⌊T / d⌋.toNat + 1 := by
    show (⌊T / d⌋ + 1).toNat = ⌊T / d⌋.toNat + 1
    omega
  have hrz : ((⌊T / d⌋.toNat : ℕ) : ℤ) = ⌊T / d⌋ := Int.toNat_of_nonneg hr0
  rw [hL, List.range_succ, List.map_append, List.sum_append]
  have hmap : (List.range ⌊T / d⌋.toNat).map (stepSize (some d) T) =
      (List.range ⌊T / d⌋.toNat).map (fun _ => d) := by
    apply List.map_congr_left
    intro i hi
    have hir : i < ⌊T / d⌋.toNat := List.mem_range.mp hi
    show (if (i : ℤ) = ⌊T / d⌋ then d * (T / d - ⌊T / d⌋) else d) = d
    rw [if_neg (by omega)]
  rw [hmap, sum_map_const_rat, List.length_range, List.map_singleton,
    List.sum_singleton]
  have hlast : stepSize (some d) T ⌊T / d⌋.toNat = d * (T / d - ⌊T / d⌋) := by
    show (if ((⌊T / d⌋.toNat : ℕ) : ℤ) = ⌊T / d⌋ then d * (T / d - ⌊T / d⌋) else d) =
      d * (T / d - ⌊T / d⌋)
    rw [if_pos hrz]
  rw [hlast]
  have hcast : ((⌊T / d⌋.toNat : ℕ) : ℚ) = ((⌊T / d⌋ : ℤ) : ℚ) := by
    exact_mod_cast congrArg (fun z : ℤ => (z : ℚ)) hrz
  rw [hcast]
  field_simp
  ring

/-- A successful `diffuse` stores the re-derived `dt` and keeps the
construction-time prefactor cache. -/
theorem diffuse_ok_dt (s : DState) (T : ℚ) (s' : DState)
    (h : diffuse s T = .ok s') :
    s'.dt = newDt s ∧ ∀ l, s'.prefactor l = s.prefactor l := by
  rcases diffuse_ok_cases s T s' h with ⟨-, hcase | ⟨upk, -, -, hfold⟩⟩
  · subst hcase; exact ⟨rfl, fun l => rfl⟩
  · subst hfold
    refine ⟨?_, fun l => ?_⟩
    · rw [stepFold_dt]
    · rw [stepFold_prefactor]

/-- When the re-derived internal step is finite and at least one sub-step
runs, `diffuse` returns the sub-step fold. -/
theorem diffuse_ok_run (s : DState) (T d : ℚ) (upk : Bool)
    (hchk : kdCheck s = none) (hupk : s.usePatchKd = some upk)
    (hdt : newDt s = some d) (hLne : numLoops (some d) T ≠ 0) :
    diffuse s T = .ok (stepFold (List.range (numLoops (some d) T)) upk (kdFunOf s)
      (stepSize (some d) T) { s with dt := some d }) := by
  unfold diffuse
  rw [hchk]
  dsimp only
  rw [hdt, if_neg hLne, hupk]
  rfl

/-- After one sub-step, every boundary pair satisfies
`z[fixed] = z[anchor] + offset` (enforcement is the last operation). -/
theorem substep_bc_invariant (st : DState) (upk : Bool) (kdf : ℕ → ℚ) (ts : ℚ)
    (hnd : st.fixedGradNodes.Nodup)
    (hdisj : ∀ a ∈ st.fixedGradAnchors, a ∉ st.fixedGradNodes) :
    ∀ p ∈ bcTriples st,
      (substepPure st upk kdf ts).z p.1 =
        (substepPure st upk kdf ts).z p.2.1 + p.2.2 := by
  intro p hp
  have hndf : ((bcTriples st).map (fun q => q.1)).Nodup :=
    (map_fst_zip_sublist _ _).nodup hnd
  have hanchor : p.2.1 ∉ (bcTriples st).map (fun q => q.1) :=
    not_mem_bc_fst st p.2.1 (hdisj p.2.1 (bc_anchor_mem st p hp))
  rw [substep_z, enforceFrom_mem _ _ _ p hndf hp,
    enforceFrom_not_mem _ _ _ _ hanchor]

/-- The boundary invariant propagates through the sub-step loop. -/
theorem stepFold_bc_invariant (L : List ℕ) (upk : Bool) (kdf szs : ℕ → ℚ) :
    ∀ s0 : DState, s0.fixedGradNodes.Nodup →
      (∀ a ∈ s0.fixedGradAnchors, a ∉ s0.fixedGradNodes) →
      (∀ p ∈ bcTriples s0, s0.z p.1 = s0.z p.2.1 + p.2.2) →
      ∀ p ∈ bcTriples (stepFold L upk kdf szs s0),
        (stepFold L upk kdf szs s0).z p.1 =
          (stepFold L upk kdf szs s0).z p.2.1 + p.2.2 := by
  induction L with
  | nil => intro s0 _ _ hbase p hp; exact hbase p hp
  | cons i t ih =>
      intro s0 hnd hdisj hbase
      exact ih (substepPure s0 upk kdf (szs i)) hnd hdisj
        (substep_bc_invariant s0 upk kdf (szs i) hnd hdisj)

/-- The derived offsets are the snapshot differences of the field at
derivation time. -/
theorem updatedBC_offsets (s : DState) :
    ∀ p ∈ bcTriples (updatedBoundaryConditions s), p.2.2 = s.z p.1 - s.z p.2.1 := by
  intro p hp
  exact mem_zip_zip_map _ _ p hp

/-! ## Claim theorems -/

/-- C1: for every `advance(dt)` with a finite internal step `d`, `diffuse`
performs exactly `floor(dt/d) + 1` sub-steps — each of size `d` except the
last, of size `d * (dt/d - floor(dt/d))`, summing to exactly `dt` — and
each sub-step updates the field at core nodes by
`field[core] += (-divergence[core]) * step_size`. -/
theorem C1_substep_structure (s : DState) (T d : ℚ) (upk : Bool)
    (hchk : kdCheck s = none) (hupk : s.usePatchKd = some upk)
    (hdt : newDt s = some d) (hd : 0 < d) (hT : 0 < T) : C1Concl s T d upk := by
  have hr0 : 0 ≤ ⌊T / d⌋ := Int.floor_nonneg.mpr (le_of_lt (div_pos hT hd))
  have hLne : numLoops (some d) T ≠ 0 := by
    show (⌊T / d⌋ + 1).toNat ≠ 0
    omega
  refine ⟨?_, ?_, ?_, ?_, sum_stepSizes T d hd hT, ?_⟩
  · unfold diffuse
    rw [hchk]
    dsimp only
    rw [hdt, if_neg hLne, hupk]
  · show (⌊T / d⌋ + 1).toNat = ⌊T / d⌋.toNat + 1
    omega
  · intro i hi
    show (if (i : ℤ) = ⌊T / d⌋ then d * (T / d - ⌊T / d⌋) else d) = d
    rw [if_neg (by omega)]
  · show (if ((⌊T / d⌋.toNat : ℕ) : ℤ) = ⌊T / d⌋ then d * (T / d - ⌊T / d⌋) else d) =
      d * (T / d - ⌊T / d⌋)
    rw [if_pos (Int.toNat_of_nonneg hr0)]
  · intro st ts n hn hnf
    exact substep_z_core st upk (kdFunOf s) ts n hn hnf

/-- C2: the offset of each derived boundary pair is the snapshot
`field[fixed] - field[anchor]` taken at derivation time, and after every
sub-step — boundary enforcement being its last operation — as well as after
every `advance` on the freshly derived triplet, `field[fixed] =
field[anchor] + offset` holds exactly.  The hypotheses are the assumptions
the spec documents: fixed nodes are pairwise distinct and no anchor is
itself a fixed node. -/
theorem C2_fixed_gradient (s : DState) (T : ℚ)
    (hnd : (updatedBoundaryConditions s).fixedGradNodes.Nodup)
    (hdisj : ∀ a ∈ (updatedBoundaryConditions s).fixedGradAnchors,
        a ∉ (updatedBoundaryConditions s).fixedGradNodes) :
    C2Concl s T := by
  refine ⟨updatedBC_offsets s, ?_, ?_⟩
  · intro st upk kdf ts hnd2 hdisj2 p hp
    exact substep_bc_invariant st upk kdf ts hnd2 hdisj2 p hp
  · intro s' hdiff p hp
    have hbase : ∀ q ∈ bcTriples (updatedBoundaryConditions s),
        (updatedBoundaryConditions s).z q.1 =
          (updatedBoundaryConditions s).z q.2.1 + q.2.2 := by
      intro q hq
      have hoff := updatedBC_offsets s q hq
      show s.z q.1 = s.z q.2.1 + q.2.2
      rw [hoff]
      ring
    rcases diffuse_ok_cases _ T s' hdiff with ⟨-, hcase | ⟨upk, -, -, hfold⟩⟩
    · subst hcase
      exact hbase p hp
    · subst hfold
      exact stepFold_bc_invariant
        (List.range (numLoops (newDt (updatedBoundaryConditions s)) T)) upk
        (kdFunOf (updatedBoundaryConditions s))
        (stepSize (newDt (updatedBoundaryConditions s)) T)
        { updatedBoundaryConditions s with dt := newDt (updatedBoundaryConditions s) }
        hnd hdisj hbase p hp

/-- C3: the stability factor is the fixed `0.15 < 0.25`; at construction
the per-link geometric prefactor `alpha * length**2` is cached once; every
`diffuse` recomputes `self.dt` from the current diffusivity as
`nanmin(prefactor / kd)` over active links, which under positive
diffusivity is the attained minimum of `alpha * length**2 / kd`. -/
theorem C3_stability (g : Grid) (ld : DiffSpec) (m : Method) (z0 : ℕ → ℚ)
    (s : DState) (hinit : initLD g (some ld) m z0 = .ok s) : C3Concl g s := by
  obtain ⟨hgrid, hz, hup, hpre⟩ := initLD_ok_fields g ld m z0 s hinit
  refine ⟨rfl, by norm_num [_ALPHA], hpre, ?_, ?_⟩
  · intro T s' hdiff
    obtain ⟨hdt, hprekeep⟩ := diffuse_ok_dt s T s' hdiff
    exact ⟨hprekeep, hdt, rfl⟩
  · intro T s' hdiff hne hkpos
    obtain ⟨hdt, -⟩ := diffuse_ok_dt s T s' hdiff
    have hmap : (s.grid.activeLinks.map fun l => safeDiv (s.prefactor l) (kdFunOf s l))
        = s.grid.activeLinks.map fun l => some (s.prefactor l / kdFunOf s l) := by
      apply List.map_congr_left
      intro l hl
      rw [safeDiv, if_neg (ne_of_gt (hkpos l hl))]
    rcases nanmin_map_some s.grid.activeLinks
        (fun l => s.prefactor l / kdFunOf s l) hne with ⟨q, hq, hle, hex⟩
    refine ⟨q, ?_, hle, hex⟩
    rw [hdt, newDt, hmap]
    exact hq

/-- C5: zero diffusivity on every active link makes the internal step
`+inf` (`none`): `advance` performs zero sub-steps, leaves the field
unchanged, and `time_step` reads `+inf`; diffusivity nonzero on some active
link (nonnegative, with the positive geometric prefactors of a real mesh)
makes the internal step strictly positive. -/
theorem C5_zero_diffusivity (s : DState) (T : ℚ) (hchk : kdCheck s = none) :
    C5Concl s T := by
  constructor
  · intro hzero
    have hnone : newDt s = none := by
      rw [newDt, nanmin_eq_none_iff]
      intro x hx
      rcases List.mem_map.mp hx with ⟨l, hl, hlx⟩
      rw [← hlx, safeDiv, if_pos (hzero l hl)]
    have hdiff : diffuse s T = .ok { s with dt := none } := by
      unfold diffuse
      rw [hchk]
      dsimp only
      rw [hnone]
      rfl
    refine ⟨hnone, hdiff, ?_⟩
    intro s' hs'
    rw [hdiff] at hs'
    have hss := Except.ok.inj hs'
    rw [← hss]
    exact ⟨fun n => rfl, rfl⟩
  · rintro ⟨l0, hl0, hkne⟩ hknn hppos
    have hpos : ∀ x ∈ (s.grid.activeLinks.map fun l =>
        safeDiv (s.prefactor l) (kdFunOf s l)), ∀ r : ℚ, x = some r → 0 < r := by
      intro x hx r hxr
      rcases List.mem_map.mp hx with ⟨l, hl, hlx⟩
      rw [← hlx] at hxr
      by_cases hk : kdFunOf s l = 0
      · rw [safeDiv, if_pos hk] at hxr
        cases hxr
      · rw [safeDiv, if_neg hk] at hxr
        have hval := Option.some.inj hxr
        rw [← hval]
        exact div_pos (hppos l hl) (lt_of_le_of_ne (hknn l hl) (Ne.symm hk))
    have hnn : newDt s ≠ none := by
      rw [newDt, Ne, nanmin_eq_none_iff]
      push_neg
      refine ⟨safeDiv (s.prefactor l0) (kdFunOf s l0),
        List.mem_map_of_mem _ hl0, ?_⟩
      rw [safeDiv, if_neg hkne]
      exact Option.some_ne_none _
    rcases Option.ne_none_iff_exists'.mp hnn with ⟨q, hq⟩
    exact ⟨q, hq, nanmin_pos _ hpos q hq⟩

/-- C6: with a node-length diffusivity array, the per-link diffusivity used
for both the flux and the stability estimate is, at each link, the maximum
of the values at its two endpoint nodes, restricted to active links. -/
theorem C6_node_max (s : DState) (a : List ℚ) (h1 : s.kd = KD.arr a)
    (h2 : s.usePatchKd = some false) : C6Concl s a := by
  have hkd : ∀ l, kdFunOf s l =
      max (nodeVal a (s.grid.nodeAtLinkHead l)) (nodeVal a (s.grid.nodeAtLinkTail l)) := by
    intro l
    simp [kdFunOf, h1, h2, mapMaxLinkNodes]
  refine ⟨hkd, ?_, ?_⟩
  · intro T s' hdiff
    obtain ⟨hdt, -⟩ := diffuse_ok_dt s T s' hdiff
    rw [hdt, newDt]
    congr 1
    apply List.map_congr_left
    intro l hl
    rw [hkd l]
  · intro ts l hl
    show qsUpdate s (kdFunOf s) (if s.usePatches then patchG s else simpleG s) l = _
    unfold qsUpdate
    rw [if_pos hl, hkd l]

/-- C10: `advance` modifies the diffused field only at core nodes and at
the derived fixed-gradient boundary nodes; every other node keeps its
value. -/
theorem C10_frame (s : DState) (T : ℚ) (s' : DState) (n : ℕ)
    (h : diffuse s T = .ok s') (hn1 : n ∉ s.grid.nodeAtCoreCell)
    (hn2 : n ∉ s.fixedGradNodes) : s'.z n = s.z n := by
  rcases diffuse_ok_cases s T s' h with ⟨-, hcase | ⟨upk, -, -, hfold⟩⟩
  · rw [hcase]
  · rw [hfold]
    exact stepFold_z_off _ upk _ _ _ n hn1 hn2

/-- C4 (amended): the constructor selector fixes `self._use_patches`, but
the sub-step dispatch branches first on `self._use_patch_kd`: the selector
names the executed scheme only when `_use_patch_kd` is `False` (scalar or
node-array diffusivity); for link-array or pair diffusivity the
patch-resolved path always runs, as the stored `g`/`qs` fields witness. -/
theorem C4_scheme_dispatch (g : Grid) (ld : DiffSpec) (m : Method) (z0 : ℕ → ℚ)
    (s : DState) (hinit : initLD g (some ld) m z0 = .ok s) : C4Concl s m := by
  obtain ⟨-, -, hup, -⟩ := initLD_ok_fields g ld m z0 s hinit
  refine ⟨hup, ?_, ?_, ?_, ?_⟩
  · intro hupk
    unfold schemeUsed
    rw [hupk, hup]
    cases m with
    | simple => rfl
    | resolveOnPatches => rfl
  · intro hupk
    unfold schemeUsed
    rw [hupk]
  · intro kdf ts
    exact ⟨rfl, rfl⟩
  · intro kdf ts
    exact ⟨rfl, rfl⟩

/-- C4 (counterexample): constructing with `method = simple` but a
link-length diffusivity array yields a state whose sub-steps run the
patch-resolved branch — the executed scheme is not the one the selector
names, and the two schemes visibly disagree on this input (the simple flux
on link 0 is `-1`, the patch flux `0`, so the core node keeps its value
where the simple scheme would have changed it). -/
theorem C4_counterexample :
    ∃ s, initLD G4w (some (DiffSpec.array [1])) Method.simple z4w = .ok s
      ∧ s.usePatches = false
      ∧ s.usePatchKd = some true
      ∧ specSelectedScheme Method.simple = FluxScheme.simple
      ∧ schemeUsed s = FluxScheme.patchResolved
      ∧ qsUpdate s (kdFunOf s) (simpleG s) 0 = -1
      ∧ patchFluxAlong s 0 = 0
      ∧ (substepPure s true (kdFunOf s) 1).z 1 = z4w 1 := by
  refine ⟨updatedBoundaryConditions
    (mkInitState G4w (KD.arr [1]) (some true) Method.simple z4w (nodeVal [1])),
    rfl, rfl, rfl, rfl, rfl, ?_, ?_, ?_⟩
  · norm_num [qsUpdate, kdFunOf, simpleG, updatedBoundaryConditions, mkInitState,
      fixedGradNodeList, G4w, zeroGrid, z4w, nodeVal]
  · norm_num [patchFluxAlong, patchFluxVec, patchAvgGrad, presentPatches, kdRawAt,
      updatedBoundaryConditions, mkInitState, fixedGradNodeList, G4w, zeroGrid,
      nodeVal]
  · norm_num [substepPure, divergenceOf, patchFluxAlong, patchFluxVec, patchAvgGrad,
      presentPatches, kdRawAt, enforceFrom, bcTriples, updatedBoundaryConditions,
      mkInitState, fixedGradNodeList, G4w, zeroGrid, z4w, nodeVal]

/-- C7: scalar diffusivity never constructs — `len(linear_diffusivity)` at
line 121 raises `TypeError` on every python float or int — although the
claim (and the doctests in the class docstring, which pass
`linear_diffusivity=1.`) require scalar construction to succeed with that
value on every active link. -/
theorem C7_scalar_construction (g : Grid) (v : ℚ) (m : Method) (z0 : ℕ → ℚ) :
    initLD g (some (DiffSpec.scalar v)) m z0 = .error .typeError := rfl

/-- C8: a 1-D diffusivity array whose length (5) matches neither the node
count (3) nor the link count (2) is accepted by construction — the
`if`/`elif` at lines 128-131 has no `else`, despite the comment at line 180
claiming an explicit length check — leaving `self._use_patch_kd` unset so
that the first `diffuse` call raises `AttributeError`.  (The other error
cases of the claim do hold: a missing diffusivity raises `KeyError` and a
malformed pair raises at the size asserts.) -/
theorem C8_wrong_length_array :
    (initLD G8w (some (DiffSpec.array kd8w)) Method.simple (fun _ => 0)).map
        (fun s => s.usePatchKd) = .ok none
    ∧ ((initLD G8w (some (DiffSpec.array kd8w)) Method.simple (fun _ => 0)) >>=
        fun s => diffuse s 1) = .error .attributeError
    ∧ initLD G8w none Method.simple (fun _ => 0) = .error .keyError
    ∧ initLD G8w (some (DiffSpec.pair [1] [1, 1, 1])) Method.simple (fun _ => 0) =
        .error .assertionError := by
  exact ⟨rfl, rfl, rfl, rfl⟩

/-- C9 (amended): in the patch-resolved gradient path with `_use_patch_kd`
false (scalar or node-array diffusivity), the flux stored on an active link
equals the projection — `cos(flux_angle - link_angle) * magnitude` — of the
vector `-kd * (patch-averaged gradient)` onto the link direction, i.e. its
dot product with the unit link vector; a link with zero incident patches
carries zero flux. -/
theorem C9_patch_isotropic (s : DState) (kdf : ℕ → ℚ) (ts : ℚ) (l : ℕ) (θ : ℝ)
    (hp : s.usePatches = true) (hl : l ∈ s.grid.activeLinks)
    (hproj : ∀ x y : ℚ, ((s.grid.projResolve x y l : ℚ) : ℝ) = resolveReal x y θ) :
    C9Concl s kdf ts l θ := by
  have hqs : (substepPure s false kdf ts).qs l =
      -(kdf l) * s.grid.projResolve (patchAvgGrad s.grid s.z l).1
        (patchAvgGrad s.grid s.z l).2 l := by
    show qsUpdate s kdf (if s.usePatches then patchG s else simpleG s) l = _
    rw [hp]
    unfold qsUpdate
    rw [if_pos hl]
    rfl
  refine ⟨?_, ?_, ?_⟩
  · rw [hqs]
    push_cast
    rw [hproj, resolveReal_eq]
    ring
  · rw [hqs, resolveReal_eq]
    push_cast
    rw [hproj, resolveReal_eq]
    ring
  · intro hnp
    have hgrad : patchAvgGrad s.grid s.z l = (0, 0) := by
      unfold patchAvgGrad
      rw [hnp]
      rfl
    have hz0 : s.grid.projResolve 0 0 l = 0 := by
      have h0 := hproj 0 0
      rw [resolveReal_eq] at h0
      norm_num at h0
      exact_mod_cast h0
    rw [hqs, hgrad]
    simp [hz0]

/-- C9 (counterexample): with a link-length diffusivity array the
patch-resolved branch computes the flux vector of lines 377-380 —
components scaled by `fabs(kd * cos)` / `fabs(kd * sin)` and both
multiplied by `dzdx` — so on a horizontal link with averaged gradient
`(0, 1)` and `kd = 1` the computed vector is `(0, 0)` while
`-kd * gradient` is `(0, -1)`: the flux vector is not `-diffusivity`
times the averaged gradient. -/
theorem C9_counterexample :
    s9c.kd = KD.arr [1]
    ∧ [1].length = s9c.grid.numLinks
    ∧ s9c.usePatchKd = some true
    ∧ (patchAvgGrad s9c.grid s9c.z 0).2 = 1
    ∧ (patchFluxVec s9c 0).2 = 0
    ∧ (patchFluxVec s9c 0).2 ≠
        -(kdRawAt s9c 0) * (patchAvgGrad s9c.grid s9c.z 0).2 := by
  refine ⟨rfl, rfl, rfl, ?_, ?_, ?_⟩
  · norm_num [patchAvgGrad, presentPatches, s9c, s1w, G9c, G1w, zeroGrid]
  · norm_num [patchFluxVec, patchAvgGrad, presentPatches, kdRawAt, s9c, s1w, G9c,
      G1w, zeroGrid, nodeVal]
  · norm_num [patchFluxVec, patchAvgGrad, presentPatches, kdRawAt, s9c, s1w, G9c,
      G1w, zeroGrid, nodeVal]

theorem C1_witness :
    kdCheck s1w = none ∧ s1w.usePatchKd = some false ∧ newDt s1w = some 1
    ∧ (0 : ℚ) < 1 ∧ C1Concl s1w 1 1 false := by
  have hdt : newDt s1w = some 1 := by
    norm_num [newDt, nanmin, safeDiv, omin, kdFunOf, s1w, G1w, zeroGrid]
  exact ⟨rfl, rfl, hdt, by norm_num,
    C1_substep_structure s1w 1 1 false rfl rfl hdt (by norm_num) (by norm_num)⟩

theorem C2_witness :
    (updatedBoundaryConditions s2w).fixedGradNodes.Nodup
    ∧ (∀ a ∈ (updatedBoundaryConditions s2w).fixedGradAnchors,
        a ∉ (updatedBoundaryConditions s2w).fixedGradNodes)
    ∧ C2Concl s2w 1 :=
  ⟨by decide, by decide, C2_fixed_gradient s2w 1 (by decide) (by decide)⟩

theorem C3_witness :
    initLD G3w (some (DiffSpec.array kd3w)) Method.simple (fun _ => 0) = .ok s3w
    ∧ C3Concl G3w s3w :=
  ⟨rfl, C3_stability G3w (DiffSpec.array kd3w) Method.simple (fun _ => 0) s3w rfl⟩

theorem C4_witness :
    initLD G3w (some (DiffSpec.array kd3w)) Method.simple (fun _ => 0) = .ok s3w
    ∧ C4Concl s3w Method.simple :=
  ⟨rfl, C4_scheme_dispatch G3w (DiffSpec.array kd3w) Method.simple (fun _ => 0) s3w rfl⟩

theorem C5_witness : kdCheck s5w = none ∧ C5Concl s5w 1 :=
  ⟨rfl, C5_zero_diffusivity s5w 1 rfl⟩

theorem C6_witness :
    s6w.kd = KD.arr [1, 2, 3] ∧ s6w.usePatchKd = some false ∧ C6Concl s6w [1, 2, 3] :=
  ⟨rfl, rfl, C6_node_max s6w [1, 2, 3] rfl rfl⟩

theorem C9_witness :
    s9w.usePatches = true ∧ 0 ∈ s9w.grid.activeLinks
    ∧ (∀ x y : ℚ, ((s9w.grid.projResolve x y 0 : ℚ) : ℝ) = resolveReal x y 0)
    ∧ C9Concl s9w (kdFunOf s9w) 1 0 0 := by
  have hproj : ∀ x y : ℚ, ((s9w.grid.projResolve x y 0 : ℚ) : ℝ) = resolveReal x y 0 := by
    intro x y
    show ((x : ℚ) : ℝ) = resolveReal x y 0
    rw [resolveReal_eq]
    simp
  exact ⟨rfl, by decide, hproj,
    C9_patch_isotropic s9w (kdFunOf s9w) 1 0 0 rfl (by decide) hproj⟩

theorem C10_witness :
    2 ∉ s1w.grid.nodeAtCoreCell ∧ 2 ∉ s1w.fixedGradNodes
    ∧ ∃ s', diffuse s1w 1 = .ok s' ∧ s'.z 2 = s1w.z 2 := by
  have hdt : newDt s1w = some 1 := by
    norm_num [newDt, nanmin, safeDiv, omin, kdFunOf, s1w, G1w, zeroGrid]
  have hLne : numLoops (some (1 : ℚ)) 1 ≠ 0 := by
    norm_num [numLoops]
  have hrun := diffuse_ok_run s1w 1 1 false rfl rfl hdt hLne
  exact ⟨by decide, by decide, _, hrun,
    C10_frame s1w 1 _ 2 hrun (by decide) (by decide)⟩

end LandlabDiffusion

